import Mathlib

/-!
# Verification of the Wordle solver core

Shallow embedding of the feedback codec (`src/solver/game/feedback.py`),
the game state (`src/solver/game/state.py`), the game engine
(`src/solver/game/engine.py`) and the consistency-filter solver
(`src/solver/strategy/impl/random_consistent.py`), together with proofs of
the specified properties.

Words are modelled as `List Char`; Python `int` feedback codes as `Nat`.
-/

set_option autoImplicit false
set_option maxRecDepth 100000

namespace WordleSolver

/-! ## Feedback codec (`feedback.py`) -/

/-- Decrement the histogram entry of letter `c` by one
(Python `counts[ord(c) - 97] -= 1`; counts are indexed by the letter). -/
def decCount (counts : Char → Nat) (c : Char) : Char → Nat :=
  fun d => if d = c then counts c - 1 else counts d

/-- Output of the first (green) pass of `_encode_feedback`: the remaining
letter budgets, the per-position `used` flags, and the partial result. -/
structure Pass1Out where
  counts : Char → Nat
  used : List Bool
  result : Nat

/-- First pass of `_encode_feedback`: for each position with
`guess[i] == answer[i]`, consume one unit of that letter's budget, mark the
position used, and add `2 * 3^i` to the result.  The power `3^i` is carried
as the accumulator `pw`. -/
def pass1 : List Char → List Char → (Char → Nat) → Nat → Pass1Out
  | g :: gs, a :: as, counts, pw =>
    if g = a then
      let o := pass1 gs as (decCount counts g) (pw * 3)
      ⟨o.counts, true :: o.used, 2 * pw + o.result⟩
    else
      let o := pass1 gs as counts (pw * 3)
      ⟨o.counts, false :: o.used, o.result⟩
  | _, _, counts, _ => ⟨counts, [], 0⟩

/-- Second pass of `_encode_feedback`: skip used positions; where the
guessed letter still has budget, consume one unit and add `1 * 3^i`. -/
def pass2 : List Char → List Bool → (Char → Nat) → Nat → Nat
  | g :: gs, u :: us, counts, pw =>
    if u then pass2 gs us counts (pw * 3)
    else if 0 < counts g then pw + pass2 gs us (decCount counts g) (pw * 3)
    else pass2 gs us counts (pw * 3)
  | _, _, _, _ => 0

/-- Model of `_encode_feedback(guess, answer)`: build the letter histogram of the
answer, run the green pass, then the yellow pass on the remaining budget. -/
def encode_feedback (guess answer : List Char) : Nat :=
  let counts : Char → Nat := fun c => answer.count c
  let o := pass1 guess answer counts 1
  o.result + pass2 guess o.used o.counts 1

/-- One decoded position of `_decode_feedback`: ternary digit to letter. -/
def decodeChar (digit : Nat) : Char :=
  if digit = 2 then 'C' else if digit = 1 then 'P' else 'A'

/-- The loop of `_decode_feedback`: peel `n` base-3 digits, least
significant first. -/
def decode_go (feedback : Nat) : Nat → List Char
  | 0 => []
  | n + 1 => decodeChar (feedback % 3) :: decode_go (feedback / 3) n

/-- Model of `_decode_feedback(feedback)`: the 5-character positional pattern. -/
def decode_feedback (feedback : Nat) : List Char :=
  decode_go feedback 5

/-- Model of `build_feedback_decode_table()`: the decoded pattern for each of the
243 possible codes. -/
def build_feedback_decode_table : List (List Char) :=
  (List.range 243).map decode_feedback

/-- Model of `build_feedback_encode_table(word_bank, valid_words)`: the matrix of
encoded feedback for every (guess, answer) pair.  The Python table has
dtype `uint8`, so storing a value keeps it modulo 256. -/
def build_feedback_encode_table (word_bank valid_words : List (List Char)) :
    List (List Nat) :=
  word_bank.map fun guess =>
    valid_words.map fun answer => encode_feedback guess answer % 256

/-- Ternary digit of a pattern character, as used when reconstructing a
code from a decoded string: 'A' ↦ 0, 'P' ↦ 1, 'C' ↦ 2. -/
def charDigit (c : Char) : Nat :=
  if c = 'C' then 2 else if c = 'P' then 1 else 0

/-- Reconstruct a code from a pattern string: `Σ digit[i] * 3^i` with
position 0 least significant. -/
def reconstruct : List Char → Nat
  | [] => 0
  | c :: cs => charDigit c + 3 * reconstruct cs

/-- The yellow-pass decisions of `_encode_feedback` as per-position flags:
`true` exactly at the positions where `pass2` adds `1 * 3^i`.  Same
recursion and conditions as `pass2`. -/
def pass2flags : List Char → List Bool → (Char → Nat) → List Bool
  | g :: gs, u :: us, counts =>
    if u then false :: pass2flags gs us counts
    else if 0 < counts g then true :: pass2flags gs us (decCount counts g)
    else false :: pass2flags gs us counts
  | _, _, _ => []

/-- Per-position ternary feedback digits from the green (`used`) and
yellow (`pass2flags`) flags: 2 at correct positions, 1 at present
positions, 0 elsewhere. -/
def digitsOf : List Bool → List Bool → List Nat :=
  List.zipWith fun u f => if u then 2 else if f then 1 else 0

/-- Value of a little-endian base-3 digit list: `Σ digit[i] * 3^i`. -/
def fromDigits3 : List Nat → Nat
  | [] => 0
  | d :: ds => d + 3 * fromDigits3 ds

/-- The per-position feedback digits produced by the two passes of
`_encode_feedback`. -/
def feedback_digits (guess answer : List Char) : List Nat :=
  let counts : Char → Nat := fun c => answer.count c
  let o := pass1 guess answer counts 1
  digitsOf o.used (pass2flags guess o.used o.counts)

/-- The five base-3 digits of a feedback code, least significant first. -/
def digitsOfCode (code : Nat) : List Nat :=
  (List.range 5).map fun i => code / 3 ^ i % 3

/-- Number of positions where guess and answer agree and both carry the
letter `c`. -/
def matchCountAt (c : Char) : List Char → List Char → Nat
  | g :: gs, a :: as => (if g = a ∧ g = c then 1 else 0) + matchCountAt c gs as
  | _, _ => 0

/-- Number of positions whose guessed letter is `c` and whose feedback
digit is 1 (marked Present). -/
def presentFor (c : Char) (guess : List Char) (ds : List Nat) : Nat :=
  ((guess.zip ds).filter fun p => p.1 == c && p.2 == 1).length

/-- All-lowercase check mirroring the spec's lowercase-word contract. -/
def lowerWord (w : List Char) : Bool :=
  w.all fun c => 'a' ≤ c && c ≤ 'z'

/-! ## Game state (`state.py`) -/

/-- Constant `WIN_FEEDBACK`: the unique all-correct code. -/
def WIN_FEEDBACK : Nat := 242

/-- Model of `GameState`: the dataclass of `state.py`.  The engine additionally
stores the word-to-index mappings and the feedback tables on the state
(`engine.py`, `__init__` / `_build_feedback_tables`); those attributes are
modelled as the last three fields.  Index maps are modelled as total
functions (dictionary lookup of a present key), and the encode table as a
function of the two indices. -/
structure GameState where
  history : List (List Char × Nat) := []
  answer : Option (List Char) := none
  word_bank : List (List Char) := []
  valid_words : List (List Char) := []
  max_turns : Nat := 6
  word_bank_index : List Char → Nat := fun _ => 0
  valid_word_index : List Char → Nat := fun _ => 0
  feedback_encode_table : Nat → Nat → Nat := fun _ _ => 0

/-- Property `GameState.turn`: number of guesses already made. -/
def GameState.turn (st : GameState) : Nat :=
  st.history.length

/-- Property `GameState.terminal`: false on empty history, otherwise the last
feedback is the win code or the turn count reached the limit. -/
def GameState.terminal (st : GameState) : Bool :=
  match st.history.getLast? with
  | none => false
  | some (_, last_feedback) =>
    (last_feedback == WIN_FEEDBACK) || decide (st.max_turns ≤ st.turn)

/-- Property `GameState.won`: non-empty history whose last feedback is the win
code. -/
def GameState.won (st : GameState) : Bool :=
  match st.history.getLast? with
  | none => false
  | some (_, last_feedback) => last_feedback == WIN_FEEDBACK

/-! ## Consistency-filter solver (`random_consistent.py`) and engine
operations (`engine.py`) -/

/-- Error kinds on the solver's guess path.  `indexOutOfRange` models a
Python `IndexError` (sequence access out of range); `emptyCandidateSet` is
the explicit error kind the spec's error catalogue prescribes for guessing
from an empty candidate set. -/
inductive SolverErr where
  | indexOutOfRange : SolverErr
  | emptyCandidateSet : SolverErr
deriving DecidableEq

/-- Errors raised by `GameEngine.play_turn`: the two `RuntimeError`s with
distinct messages. -/
inductive EngineErr where
  | gameAlreadyTerminal : EngineErr
  | noAnswerSet : EngineErr
deriving DecidableEq

/-- Internal state of `RandomConsistentSolver`: the optional candidate
list and the processed-turn counter. -/
structure SolverState where
  candidates : Option (List (List Char)) := none
  processed_turns : Nat := 0

/-- The candidate set the solver draws from: the stored list, or all valid
words while still uninitialized. -/
def candSet (st : GameState) (s : SolverState) : List (List Char) :=
  s.candidates.getD st.valid_words

/-- Model of `RandomConsistentSolver._update_candidates`: when the history holds
nothing new, do nothing; otherwise initialize the candidate list if
needed and keep exactly the candidates whose table feedback against the
last guess equals the last observed feedback.  Reading `history[-1]` of an
empty history raises a Python `IndexError`. -/
def update_candidates (st : GameState) (s : SolverState) :
    Except SolverErr SolverState :=
  if st.history.length = s.processed_turns then .ok s
  else
    let cands := s.candidates.getD st.valid_words
    match st.history.getLast? with
    | none => .error .indexOutOfRange
    | some (last_guess, last_feedback) =>
      .ok { candidates := some (cands.filter fun word =>
              st.feedback_encode_table (st.word_bank_index last_guess)
                (st.valid_word_index word) == last_feedback),
            processed_turns := s.processed_turns + 1 }

/-- Python `random.choice(seq)`: evaluates `seq[i]` at an rng-chosen index
`i`; on an empty sequence the access raises `IndexError`.  The rng draw is
abstracted as `pick`. -/
def randomChoice {α : Type} (pick : Nat) (l : List α) : Except SolverErr α :=
  if h : 0 < l.length then .ok (l.get ⟨pick % l.length, Nat.mod_lt _ h⟩)
  else .error .indexOutOfRange

/-- Model of `RandomConsistentSolver.guess`: fold the newest feedback into the
candidate list, initialize it when still `None`, then pick a random
candidate from it. -/
def solver_guess (st : GameState) (s : SolverState) (pick : Nat) :
    Except SolverErr (SolverState × List Char) :=
  match update_candidates st s with
  | .error e => .error e
  | .ok s1 =>
    let cands := s1.candidates.getD st.valid_words
    match randomChoice pick cands with
    | .error e => .error e
    | .ok g => .ok ({ s1 with candidates := some cands }, g)

/-- Model of `GameEngine.play_turn`: refuse a terminal game, then a missing hidden
answer; otherwise obtain a guess from the solver, read the feedback from
the table row of the guess and the column of the hidden answer, and append
the pair to the history.  The returned state is the state after the call:
in both error cases it is the unchanged input state.  The solver is
abstracted as a function of the game state. -/
def play_turn (solverGuess : GameState → List Char) (st : GameState) :
    GameState × Except EngineErr (List Char × Nat) :=
  if st.terminal then (st, .error .gameAlreadyTerminal)
  else
    match st.answer with
    | none => (st, .error .noAnswerSet)
    | some ans =>
      let guess := solverGuess st
      let feedback := st.feedback_encode_table (st.word_bank_index guess)
        (st.valid_word_index ans)
      ({ st with history := st.history ++ [(guess, feedback)] },
        .ok (guess, feedback))

/-- One simulated game over a list of guesses: each turn the engine
appends (guess, feedback read from the table entry for the hidden answer)
to the history — the mutation `play_turn` performs — and the solver folds
the new entry in with `_update_candidates`. -/
def fold_game : List (List Char) → GameState → SolverState →
    Option (GameState × SolverState)
  | [], st, s => some (st, s)
  | g :: gs, st, s =>
    match st.answer with
    | none => none
    | some ans =>
      let feedback := st.feedback_encode_table (st.word_bank_index g)
        (st.valid_word_index ans)
      let st1 : GameState := { st with history := st.history ++ [(g, feedback)] }
      match update_candidates st1 s with
      | .error _ => none
      | .ok s1 => fold_game gs st1 s1

/-- The enumerated (index, word) pairs of `enumerate(word_list)`. -/
def indexPairs : Nat → List (List Char) → List (Nat × List Char)
  | _, [] => []
  | n, w :: ws => (n, w) :: indexPairs (n + 1) ws

/-- Body of `GameEngine._build_index_dictionary`: the dict comprehension
`{word: i for i, word in enumerate(word_list)}` over the function's single
parameter.  Looking a key up yields the value of the last enumeration
entry with that key (later assignments overwrite earlier ones), or nothing
when the key is absent.  Note: this models only the comprehension body;
the method is declared without a `self` parameter, so the calls
`__init__` makes never reach it — see `engine_build_index_call`. -/
def build_index_dictionary (word_list : List (List Char)) :
    List Char → Option Nat :=
  fun w => (((indexPairs 0 word_list).filter fun p => p.2 == w).getLast?).map
    fun p => p.1

/-- Error raised while `GameEngine.__init__` builds the index
dictionaries. -/
inductive EngineInitErr where
  | typeError : EngineInitErr
deriving DecidableEq

/-- Parameter count of `_build_index_dictionary` as declared in the
source: the single parameter `word_list`.  The `self` parameter is
missing and there is no `staticmethod` decorator. -/
def build_index_dictionary_param_count : Nat := 1

/-- Positional arguments supplied by the bound-method call
`self._build_index_dictionary(word_list)` in `GameEngine.__init__`:
Python passes the receiver and then the one explicit argument. -/
def bound_method_arg_count : Nat := 2

/-- Model of the call `self._build_index_dictionary(word_list)` made by
`GameEngine.__init__`: Python raises `TypeError` when the number of
positional arguments supplied by the call differs from the function's
parameter count, and only on a match evaluates the dict comprehension on
the word list. -/
def engine_build_index_call (word_list : List (List Char)) :
    Except EngineInitErr (List Char → Option Nat) :=
  if bound_method_arg_count = build_index_dictionary_param_count
  then .ok (build_index_dictionary word_list)
  else .error .typeError

/-! ## Theorems for the decode round-trip (C3) and state predicates -/

/-- C3: for every code in [0, 242], reading the 5-character string returned
by `_decode_feedback` digit by digit ('A' ↦ 0, 'P' ↦ 1, 'C' ↦ 2, position
`i` weighted by `3^i`) reconstructs the original code. -/
theorem decode_roundtrip :
    ∀ code : Nat, code ≤ 242 → reconstruct (decode_feedback code) = code := by
  decide

/-- Witness for C3 at code 100. -/
theorem decode_roundtrip_witness :
    (100 : Nat) ≤ 242 ∧ reconstruct (decode_feedback 100) = 100 :=
  ⟨by decide, decode_roundtrip 100 (by decide)⟩

/-- C5: `terminal` is false on an empty history; true whenever the history
is non-empty and ends in the win code 242, for any turn count; and true
whenever the history is non-empty and the number of entries reached
`max_turns`, win or not. -/
theorem terminal_characterization (st : GameState) :
    (st.history = [] → st.terminal = false) ∧
    (∀ g f, st.history.getLast? = some (g, f) → f = 242 →
      st.terminal = true) ∧
    (st.history ≠ [] → st.max_turns ≤ st.history.length →
      st.terminal = true) := by
  refine ⟨fun h => ?_, fun g f hlast hf => ?_, fun hne hturns => ?_⟩
  · simp [GameState.terminal, h]
  · simp [GameState.terminal, hlast, hf, WIN_FEEDBACK]
  · rcases h : st.history.getLast? with _ | ⟨g, f⟩
    · exact absurd (List.getLast?_eq_none_iff.mp h) hne
    · simp [GameState.terminal, h, GameState.turn, hturns]

/-- Witness for C5: a fresh state, a winning state after one turn, and an
exhausted losing state. -/
theorem terminal_characterization_witness :
    ({ } : GameState).terminal = false ∧
    ({ history := [(['a'], 242)] } : GameState).terminal = true ∧
    ({ history := [(['a'], 0)], max_turns := 1 } : GameState).terminal
      = true := by
  refine ⟨(terminal_characterization { }).1 rfl,
    (terminal_characterization _).2.1 ['a'] 242 rfl rfl,
    (terminal_characterization _).2.2 (by decide) (by decide)⟩

/-- C10: a won game is always terminal, for any history, answer and turn
limit. -/
theorem won_implies_terminal (st : GameState) :
    st.won = true → st.terminal = true := by
  intro h
  unfold GameState.won at h
  rcases hl : st.history.getLast? with _ | ⟨g, f⟩ <;> rw [hl] at h
  · exact absurd h (by simp)
  · simp only [beq_iff_eq] at h
    simp [GameState.terminal, hl, h]

/-- Witness for C10: a state that just received the win code. -/
theorem won_implies_terminal_witness :
    ({ history := [(['a'], 242)] } : GameState).terminal = true :=
  won_implies_terminal { history := [(['a'], 242)] } rfl

/-! ## Digit decomposition of the encoder -/

theorem digitsOf_cons (u f : Bool) (us fs : List Bool) :
    digitsOf (u :: us) (f :: fs)
      = (if u then 2 else if f then 1 else 0) :: digitsOf us fs := rfl

theorem pass1_used_length (gs : List Char) :
    ∀ (as : List Char) (counts : Char → Nat) (pw : Nat),
    (pass1 gs as counts pw).used.length = min gs.length as.length := by
  induction gs with
  | nil => intro as counts pw; cases as <;> simp [pass1]
  | cons g gs ih =>
    intro as counts pw
    cases as with
    | nil => simp [pass1]
    | cons a as =>
      by_cases h : g = a <;>
        simp [pass1, h, ih, Nat.succ_min_succ]

theorem pass2flags_length (gs : List Char) :
    ∀ (us : List Bool) (counts : Char → Nat),
    (pass2flags gs us counts).length = min gs.length us.length := by
  induction gs with
  | nil => intro us counts; cases us <;> simp [pass2flags]
  | cons g gs ih =>
    intro us counts
    cases us with
    | nil => simp [pass2flags]
    | cons u us =>
      by_cases hu : u
      · simp [pass2flags, hu, ih, Nat.succ_min_succ]
      · by_cases hc : 0 < counts g <;>
          simp [pass2flags, hu, hc, ih, Nat.succ_min_succ]

theorem digitsOf_lt3 (us : List Bool) :
    ∀ (fs : List Bool), ∀ d ∈ digitsOf us fs, d < 3 := by
  induction us with
  | nil => intro fs; simp [digitsOf]
  | cons u us ih =>
    intro fs
    cases fs with
    | nil => simp [digitsOf]
    | cons f fs =>
      intro d hd
      rw [digitsOf_cons] at hd
      rcases List.mem_cons.mp hd with h | h
      · subst h; cases u <;> cases f <;> simp
      · exact ih fs d h

theorem fromDigits3_lt (ds : List Nat) (h : ∀ d ∈ ds, d < 3) :
    fromDigits3 ds < 3 ^ ds.length := by
  induction ds with
  | nil => simp [fromDigits3]
  | cons d ds ih =>
    have hd : d < 3 := h d (List.mem_cons_self d ds)
    have ht := ih fun x hx => h x (List.mem_cons_of_mem d hx)
    simp only [fromDigits3, List.length_cons, pow_succ]
    omega

theorem fromDigits3_inj (ds : List Nat) :
    ∀ es : List Nat, ds.length = es.length →
    (∀ d ∈ ds, d < 3) → (∀ e ∈ es, e < 3) →
    fromDigits3 ds = fromDigits3 es → ds = es := by
  induction ds with
  | nil =>
    intro es hlen _ _ _
    cases es with
    | nil => rfl
    | cons e es => simp at hlen
  | cons d ds ih =>
    intro es hlen hd he heq
    cases es with
    | nil => simp at hlen
    | cons e es =>
      simp only [fromDigits3] at heq
      have hd0 : d < 3 := hd d (List.mem_cons_self _ _)
      have he0 : e < 3 := he e (List.mem_cons_self _ _)
      have h1 : d = e := by omega
      have h2 : fromDigits3 ds = fromDigits3 es := by omega
      subst h1
      rw [ih es (by simpa using hlen)
        (fun x hx => hd x (List.mem_cons_of_mem _ hx))
        (fun x hx => he x (List.mem_cons_of_mem _ hx)) h2]

theorem pass1_result_eq (gs : List Char) :
    ∀ (as : List Char) (counts : Char → Nat) (pw : Nat),
    (pass1 gs as counts pw).result
      = pw * fromDigits3
          ((pass1 gs as counts pw).used.map fun u => if u then 2 else 0) := by
  induction gs with
  | nil => intro as counts pw; cases as <;> simp [pass1, fromDigits3]
  | cons g gs ih =>
    intro as counts pw
    cases as with
    | nil => simp [pass1, fromDigits3]
    | cons a as =>
      by_cases h : g = a
      · simp only [pass1, if_pos h, List.map_cons, fromDigits3, if_pos rfl]
        rw [ih as (decCount counts g) (pw * 3)]
        rw [if_pos trivial]
        ring
      · simp only [pass1, if_neg h, List.map_cons, fromDigits3]
        rw [ih as counts (pw * 3)]
        simp only [Bool.false_eq_true, if_false]
        ring

theorem pass2_eq_flags (gs : List Char) :
    ∀ (us : List Bool) (counts : Char → Nat) (pw : Nat),
    pass2 gs us counts pw
      = pw * fromDigits3
          ((pass2flags gs us counts).map fun f => if f then 1 else 0) := by
  induction gs with
  | nil => intro us counts pw; cases us <;> simp [pass2, pass2flags, fromDigits3]
  | cons g gs ih =>
    intro us counts pw
    cases us with
    | nil => simp [pass2, pass2flags, fromDigits3]
    | cons u us =>
      by_cases hu : u
      · simp only [pass2, pass2flags, if_pos hu, List.map_cons, fromDigits3,
          Bool.false_eq_true, if_false]
        rw [ih us counts (pw * 3)]
        ring
      · by_cases hc : 0 < counts g
        · simp only [pass2, pass2flags, if_neg hu, if_pos hc, List.map_cons,
            fromDigits3, if_pos rfl]
          rw [ih us (decCount counts g) (pw * 3)]
          rw [if_pos trivial]
          ring
        · simp only [pass2, pass2flags, if_neg hu, if_neg hc, List.map_cons,
            fromDigits3, Bool.false_eq_true, if_false]
          rw [ih us counts (pw * 3)]
          ring

theorem fromDigits3_digitsOf_split (gs : List Char) :
    ∀ (us : List Bool) (counts : Char → Nat), us.length = gs.length →
    fromDigits3 (digitsOf us (pass2flags gs us counts))
      = fromDigits3 (us.map fun u => if u then 2 else 0)
        + fromDigits3
            ((pass2flags gs us counts).map fun f => if f then 1 else 0) := by
  induction gs with
  | nil =>
    intro us counts hlen
    cases us with
    | nil => simp [digitsOf, pass2flags, fromDigits3]
    | cons u us => simp at hlen
  | cons g gs ih =>
    intro us counts hlen
    cases us with
    | nil => simp at hlen
    | cons u us =>
      have hlen' : us.length = gs.length := by simpa using hlen
      by_cases hu : u
      · rw [show pass2flags (g :: gs) (u :: us) counts
            = false :: pass2flags gs us counts from by simp [pass2flags, hu]]
        rw [digitsOf_cons]
        simp only [List.map_cons, fromDigits3, if_pos hu, Bool.false_eq_true,
          if_false, if_true]
        rw [ih us counts hlen']
        ring
      · by_cases hc : 0 < counts g
        · rw [show pass2flags (g :: gs) (u :: us) counts
              = true :: pass2flags gs us (decCount counts g) from by
                simp [pass2flags, hu, hc]]
          rw [digitsOf_cons]
          simp only [List.map_cons, fromDigits3, if_neg hu, if_pos rfl,
            if_true]
          rw [ih us (decCount counts g) hlen']
          ring
        · rw [show pass2flags (g :: gs) (u :: us) counts
              = false :: pass2flags gs us counts from by
                simp [pass2flags, hu, hc]]
          rw [digitsOf_cons]
          simp only [List.map_cons, fromDigits3, if_neg hu, Bool.false_eq_true,
            if_false]
          rw [ih us counts hlen']
          ring

theorem encode_feedback_eq_digits (guess answer : List Char)
    (hlen : guess.length = answer.length) :
    encode_feedback guess answer = fromDigits3 (feedback_digits guess answer) := by
  simp only [encode_feedback, feedback_digits]
  have hus : (pass1 guess answer (fun c => answer.count c) 1).used.length
      = guess.length := by
    rw [pass1_used_length, hlen, Nat.min_self]
  rw [pass1_result_eq, pass2_eq_flags,
    fromDigits3_digitsOf_split guess _ _ hus]
  omega

theorem feedback_digits_length (guess answer : List Char)
    (hg : guess.length = 5) (ha : answer.length = 5) :
    (feedback_digits guess answer).length = 5 := by
  simp only [feedback_digits, digitsOf, List.length_zipWith,
    pass1_used_length, pass2flags_length, hg, ha]
  omega

theorem feedback_digits_lt3 (guess answer : List Char) :
    ∀ d ∈ feedback_digits guess answer, d < 3 := by
  simp only [feedback_digits]
  exact digitsOf_lt3 _ _

theorem digitsOfCode_fromDigits (ds : List Nat) (hlen : ds.length = 5)
    (hlt : ∀ d ∈ ds, d < 3) : digitsOfCode (fromDigits3 ds) = ds := by
  rcases ds with _ | ⟨d0, ds⟩; · simp at hlen
  rcases ds with _ | ⟨d1, ds⟩; · simp at hlen
  rcases ds with _ | ⟨d2, ds⟩; · simp at hlen
  rcases ds with _ | ⟨d3, ds⟩; · simp at hlen
  rcases ds with _ | ⟨d4, ds⟩; · simp at hlen
  rcases ds with _ | ⟨d5, ds⟩
  swap; · simp at hlen
  have h0 : d0 < 3 := hlt _ (by simp)
  have h1 : d1 < 3 := hlt _ (by simp)
  have h2 : d2 < 3 := hlt _ (by simp)
  have h3 : d3 < 3 := hlt _ (by simp)
  have h4 : d4 < 3 := hlt _ (by simp)
  have hr : List.range 5 = [0, 1, 2, 3, 4] := rfl
  simp only [digitsOfCode, hr, List.map_cons, List.map_nil, fromDigits3,
    List.cons.injEq, and_true]
  norm_num
  omega

theorem digitsOfCode_encode (guess answer : List Char)
    (hg : guess.length = 5) (ha : answer.length = 5) :
    digitsOfCode (encode_feedback guess answer)
      = feedback_digits guess answer := by
  rw [encode_feedback_eq_digits guess answer (hg.trans ha.symm)]
  exact digitsOfCode_fromDigits _ (feedback_digits_length guess answer hg ha)
    (feedback_digits_lt3 guess answer)

theorem pass1_used_replicate_iff (gs : List Char) :
    ∀ (as : List Char) (counts : Char → Nat) (pw : Nat),
    gs.length = as.length →
    ((pass1 gs as counts pw).used = List.replicate gs.length true ↔ gs = as) := by
  induction gs with
  | nil =>
    intro as counts pw hlen
    cases as with
    | nil => simp [pass1]
    | cons a as => simp at hlen
  | cons g gs ih =>
    intro as counts pw hlen
    cases as with
    | nil => simp at hlen
    | cons a as =>
      have hlen' : gs.length = as.length := by simpa using hlen
      by_cases h : g = a
      · simp [pass1, h, List.replicate_succ,
          ih as (decCount counts a) (pw * 3) hlen']
      · simp [pass1, h, List.replicate_succ]

theorem digitsOf_replicate_iff (us : List Bool) :
    ∀ fs : List Bool, us.length = fs.length →
    (digitsOf us fs = List.replicate us.length 2
      ↔ us = List.replicate us.length true) := by
  induction us with
  | nil => intro fs _; simp [digitsOf]
  | cons u us ih =>
    intro fs hlen
    cases fs with
    | nil => simp at hlen
    | cons f fs =>
      have hlen' : us.length = fs.length := by simpa using hlen
      rw [digitsOf_cons]
      simp only [List.length_cons, List.replicate_succ, List.cons.injEq]
      rw [ih fs hlen']
      constructor
      · rintro ⟨h1, h2⟩
        refine ⟨?_, h2⟩
        cases u
        · cases f <;> simp at h1
        · rfl
      · rintro ⟨h1, h2⟩
        subst h1
        exact ⟨by simp, h2⟩

/-- C2: for 5-letter lowercase words, `_encode_feedback(guess, answer)` is
242 exactly when the guess equals the answer. -/
theorem encode_win_iff (guess answer : List Char)
    (hg : guess.length = 5) (ha : answer.length = 5)
    (hlg : lowerWord guess = true) (hla : lowerWord answer = true) :
    (encode_feedback guess answer = 242 ↔ guess = answer) := by
  have hlen : guess.length = answer.length := hg.trans ha.symm
  have henc := encode_feedback_eq_digits guess answer hlen
  have husl : (pass1 guess answer (fun c => answer.count c) 1).used.length
      = 5 := by
    rw [pass1_used_length, hg, ha, Nat.min_self]
  have hfsl : (pass2flags guess
      (pass1 guess answer (fun c => answer.count c) 1).used
      (pass1 guess answer (fun c => answer.count c) 1).counts).length = 5 := by
    rw [pass2flags_length, husl, hg, Nat.min_self]
  have hsplit : feedback_digits guess answer
      = digitsOf (pass1 guess answer (fun c => answer.count c) 1).used
          (pass2flags guess
            (pass1 guess answer (fun c => answer.count c) 1).used
            (pass1 guess answer (fun c => answer.count c) 1).counts) := rfl
  have hrep := digitsOf_replicate_iff
    (pass1 guess answer (fun c => answer.count c) 1).used
    (pass2flags guess
      (pass1 guess answer (fun c => answer.count c) 1).used
      (pass1 guess answer (fun c => answer.count c) 1).counts)
    (by rw [husl, hfsl])
  have hused := pass1_used_replicate_iff guess answer
    (fun c => answer.count c) 1 hlen
  rw [hg] at hused
  rw [husl] at hrep
  constructor
  · intro h
    have h242 : fromDigits3 (feedback_digits guess answer)
        = fromDigits3 [2, 2, 2, 2, 2] := by
      rw [← henc, h]; rfl
    have hD : feedback_digits guess answer = [2, 2, 2, 2, 2] :=
      fromDigits3_inj _ _
        (by rw [feedback_digits_length guess answer hg ha]; rfl)
        (feedback_digits_lt3 guess answer) (by decide) h242
    rw [hsplit] at hD
    have : List.replicate 5 (2 : Nat) = [2, 2, 2, 2, 2] := rfl
    rw [← this] at hD
    exact hused.mp (hrep.mp hD)
  · intro h
    have hu := hused.mpr h
    have hD := hrep.mpr hu
    rw [← hsplit] at hD
    rw [henc, hD]
    rfl

/-- Witness for C2 at guess = answer = "cigar" and at
guess = "cigar", answer = "mango". -/
theorem encode_win_iff_witness :
    encode_feedback ['c', 'i', 'g', 'a', 'r'] ['c', 'i', 'g', 'a', 'r'] = 242
    ∧ encode_feedback ['c', 'i', 'g', 'a', 'r'] ['m', 'a', 'n', 'g', 'o']
        ≠ 242 := by
  constructor
  · exact (encode_win_iff ['c', 'i', 'g', 'a', 'r'] ['c', 'i', 'g', 'a', 'r']
      (by decide) (by decide) (by decide) (by decide)).mpr rfl
  · intro h
    exact absurd ((encode_win_iff ['c', 'i', 'g', 'a', 'r']
      ['m', 'a', 'n', 'g', 'o'] (by decide) (by decide) (by decide)
      (by decide)).mp h) (by decide)

theorem encode_feedback_lt_243 (guess answer : List Char)
    (hg : guess.length = 5) (ha : answer.length = 5) :
    encode_feedback guess answer < 243 := by
  rw [encode_feedback_eq_digits guess answer (hg.trans ha.symm)]
  have h := fromDigits3_lt (feedback_digits guess answer)
    (feedback_digits_lt3 guess answer)
  rw [feedback_digits_length guess answer hg ha] at h
  simpa using h

/-- C4: every cell of the table built by `build_feedback_encode_table`
equals `_encode_feedback` applied to the corresponding word bank and valid
word entries — the table is extensionally the pure codec. -/
theorem table_matches_codec (word_bank valid_words : List (List Char))
    (hwb : ∀ w ∈ word_bank, w.length = 5)
    (hvw : ∀ w ∈ valid_words, w.length = 5)
    (g a : Nat) (hg : g < word_bank.length) (ha : a < valid_words.length) :
    ((build_feedback_encode_table word_bank valid_words).getD g []).getD a 0
      = encode_feedback (word_bank.getD g []) (valid_words.getD a []) := by
  have hg2 : g < (build_feedback_encode_table word_bank valid_words).length := by
    simpa [build_feedback_encode_table] using hg
  rw [List.getD_eq_getElem _ _ hg2, List.getD_eq_getElem _ _ hg]
  simp only [build_feedback_encode_table, List.getElem_map]
  have ha2 : a < (valid_words.map fun answer =>
      encode_feedback word_bank[g] answer % 256).length := by
    simpa using ha
  rw [List.getD_eq_getElem _ _ ha2, List.getD_eq_getElem _ _ ha]
  simp only [List.getElem_map]
  have hlt := encode_feedback_lt_243 word_bank[g] valid_words[a]
    (hwb _ (List.getElem_mem hg)) (hvw _ (List.getElem_mem ha))
  omega

/-- Witness for C4 on the one-word vocabularies ["cigar"]. -/
theorem table_matches_codec_witness :
    ((build_feedback_encode_table [['c', 'i', 'g', 'a', 'r']]
        [['c', 'i', 'g', 'a', 'r']]).getD 0 []).getD 0 0
      = encode_feedback ([['c', 'i', 'g', 'a', 'r']].getD 0 [])
          ([['c', 'i', 'g', 'a', 'r']].getD 0 []) :=
  table_matches_codec [['c', 'i', 'g', 'a', 'r']] [['c', 'i', 'g', 'a', 'r']]
    (by decide) (by decide) 0 0 (by decide) (by decide)

/-! ## Present-mark budget (duplicate letters) -/

theorem presentFor_cons (c g : Char) (d : Nat) (gs : List Char)
    (ds : List Nat) :
    presentFor c (g :: gs) (d :: ds)
      = (if g = c ∧ d = 1 then 1 else 0) + presentFor c gs ds := by
  simp only [presentFor, List.zip_cons_cons, List.filter_cons]
  by_cases h : g = c ∧ d = 1
  · simp [h.1, h.2]
    omega
  · have hb : ((g == c) && (d == 1)) = false := by
      by_cases h1 : g = c
      · by_cases h2 : d = 1
        · exact absurd ⟨h1, h2⟩ h
        · simp [h2]
      · simp [h1]
    simp [hb, h]

theorem presentFor_le_counts (c : Char) (gs : List Char) :
    ∀ (us : List Bool) (counts : Char → Nat),
    presentFor c gs (digitsOf us (pass2flags gs us counts)) ≤ counts c := by
  induction gs with
  | nil => intro us counts; simp [presentFor, digitsOf, pass2flags]
  | cons g gs ih =>
    intro us counts
    cases us with
    | nil => simp [presentFor, pass2flags, digitsOf]
    | cons u us =>
      by_cases hu : u
      · rw [show pass2flags (g :: gs) (u :: us) counts
            = false :: pass2flags gs us counts from by simp [pass2flags, hu]]
        rw [digitsOf_cons, presentFor_cons]
        have hh := ih us counts
        have hif : (if u = true then 2
            else if false = true then 1 else 0) = (2 : Nat) := by simp [hu]
        rw [hif]
        simp only [show ¬(g = c ∧ (2 : Nat) = 1) from fun hx => by omega,
          if_false]
        omega
      · by_cases hc : 0 < counts g
        · rw [show pass2flags (g :: gs) (u :: us) counts
              = true :: pass2flags gs us (decCount counts g) from by
                simp [pass2flags, hu, hc]]
          rw [digitsOf_cons]
          have hif : (if u = true then 2
              else if true = true then 1 else 0) = (1 : Nat) := by simp [hu]
          rw [hif, presentFor_cons]
          have hh := ih us (decCount counts g)
          by_cases hgc : g = c
          · have hd : decCount counts g c = counts c - 1 := by
              simp [decCount, hgc]
            rw [hd] at hh
            have hcc : 0 < counts c := by rw [← hgc]; exact hc
            rw [if_pos (show g = c ∧ (1 : Nat) = 1 from ⟨hgc, rfl⟩)]
            omega
          · have hd : decCount counts g c = counts c := by
              have : c ≠ g := fun hx => hgc hx.symm
              simp [decCount, this]
            rw [hd] at hh
            simp only [hgc, false_and, if_false]
            omega
        · rw [show pass2flags (g :: gs) (u :: us) counts
              = false :: pass2flags gs us counts from by
                simp [pass2flags, hu, hc]]
          rw [digitsOf_cons]
          have hif : (if u = true then 2
              else if false = true then 1 else 0) = (0 : Nat) := by simp [hu]
          rw [hif, presentFor_cons]
          have hh := ih us counts
          simp only [show ¬(g = c ∧ (0 : Nat) = 1) from fun hx => by omega,
            if_false]
          omega

theorem pass1_counts_eq (c : Char) (gs : List Char) :
    ∀ (as : List Char) (counts : Char → Nat) (pw : Nat),
    (pass1 gs as counts pw).counts c = counts c - matchCountAt c gs as := by
  induction gs with
  | nil => intro as counts pw; cases as <;> simp [pass1, matchCountAt]
  | cons g gs ih =>
    intro as counts pw
    cases as with
    | nil => simp [pass1, matchCountAt]
    | cons a as =>
      by_cases h : g = a
      · simp only [pass1, if_pos h, matchCountAt]
        rw [ih as (decCount counts g) (pw * 3)]
        by_cases hgc : g = c
        · have hd : decCount counts g c = counts c - 1 := by
            simp [decCount, hgc]
          rw [hd]
          rw [if_pos (show g = a ∧ g = c from ⟨h, hgc⟩)]
          omega
        · have hd : decCount counts g c = counts c := by
            have : c ≠ g := fun hx => hgc hx.symm
            simp [decCount, this]
          rw [hd]
          rw [if_neg (show ¬(g = a ∧ g = c) from fun hx => hgc hx.2)]
          omega
      · simp only [pass1, if_neg h, matchCountAt]
        rw [ih as counts (pw * 3)]
        rw [if_neg (show ¬(g = a ∧ g = c) from fun hx => h hx.1)]
        omega

/-- C6: for 5-letter lowercase words and every letter `c`, the number of
positions whose guessed letter is `c` and whose base-3 feedback digit is 1
(Present) is at most the count of `c` in the answer minus the number of
positions where guess and answer both carry `c`; in particular, on guess
"speed" against answer "abide" exactly one position with letter 'e' is
marked Present — position 2, the first 'e' — and the second 'e'
(position 3) is not marked Present. -/
theorem present_marks_bounded (guess answer : List Char)
    (hg : guess.length = 5) (ha : answer.length = 5)
    (hlg : lowerWord guess = true) (hla : lowerWord answer = true) :
    (∀ c : Char,
      presentFor c guess (digitsOfCode (encode_feedback guess answer))
        ≤ answer.count c - matchCountAt c guess answer)
    ∧ presentFor 'e' ['s', 'p', 'e', 'e', 'd']
        (digitsOfCode (encode_feedback ['s', 'p', 'e', 'e', 'd']
          ['a', 'b', 'i', 'd', 'e'])) = 1
    ∧ (digitsOfCode (encode_feedback ['s', 'p', 'e', 'e', 'd']
        ['a', 'b', 'i', 'd', 'e'])).getD 2 0 = 1
    ∧ (digitsOfCode (encode_feedback ['s', 'p', 'e', 'e', 'd']
        ['a', 'b', 'i', 'd', 'e'])).getD 3 0 = 0 := by
  refine ⟨fun c => ?_, by decide, by decide, by decide⟩
  rw [digitsOfCode_encode guess answer hg ha]
  have hb := presentFor_le_counts c guess
    (pass1 guess answer (fun x => answer.count x) 1).used
    (pass1 guess answer (fun x => answer.count x) 1).counts
  rw [pass1_counts_eq c guess answer (fun x => answer.count x) 1] at hb
  exact hb

/-- Witness for C6 at guess "speed", answer "abide", letter 'e'. -/
theorem present_marks_bounded_witness :
    presentFor 'e' ['s', 'p', 'e', 'e', 'd']
        (digitsOfCode (encode_feedback ['s', 'p', 'e', 'e', 'd']
          ['a', 'b', 'i', 'd', 'e']))
      ≤ ['a', 'b', 'i', 'd', 'e'].count 'e'
        - matchCountAt 'e' ['s', 'p', 'e', 'e', 'd'] ['a', 'b', 'i', 'd', 'e'] :=
  (present_marks_bounded ['s', 'p', 'e', 'e', 'd'] ['a', 'b', 'i', 'd', 'e']
    (by decide) (by decide) (by decide) (by decide)).1 'e'

/-! ## Consistency-filter invariant and error handling -/

theorem update_candidates_preserves (st : GameState) (s : SolverState)
    (ans : List Char) (s1 : SolverState)
    (hfb : ∀ g f, st.history.getLast? = some (g, f) →
      f = st.feedback_encode_table (st.word_bank_index g)
        (st.valid_word_index ans))
    (hup : update_candidates st s = .ok s1)
    (hmem : ans ∈ candSet st s) : ans ∈ candSet st s1 := by
  by_cases hlen : st.history.length = s.processed_turns
  · simp only [update_candidates, if_pos hlen, Except.ok.injEq] at hup
    rw [← hup]
    exact hmem
  · cases hl : st.history.getLast? with
    | none =>
      simp [update_candidates, if_neg hlen, hl] at hup
    | some p =>
      obtain ⟨g, f⟩ := p
      simp only [update_candidates, if_neg hlen, hl, Except.ok.injEq] at hup
      rw [← hup]
      simp only [candSet, Option.getD_some]
      apply List.mem_filter.mpr
      refine ⟨hmem, ?_⟩
      rw [hfb g f hl]
      exact beq_self_eq_true _

/-- C1: in a game where every turn's feedback code is the feedback table
entry for the actual hidden answer, `_update_candidates` never removes the
hidden answer: if the answer is in the candidate set at the start of the
run it is still there after any sequence of turns (and hence, applied to
every prefix of a game, at every turn). -/
theorem answer_never_pruned (gs : List (List Char)) :
    ∀ (st : GameState) (s : SolverState) (out : GameState × SolverState)
      (ans : List Char),
    st.answer = some ans →
    fold_game gs st s = some out →
    ans ∈ candSet st s →
    ans ∈ candSet out.1 out.2 := by
  induction gs with
  | nil =>
    intro st s out ans _ hfold hmem
    simp only [fold_game, Option.some.injEq] at hfold
    rw [← hfold]
    exact hmem
  | cons g gs ih =>
    intro st s out ans hans hfold hmem
    simp only [fold_game] at hfold
    split at hfold
    · rename_i heq
      rw [hans] at heq
      exact absurd heq (by simp)
    · rename_i ans2 heq
      rw [hans] at heq
      injection heq with heq2
      subst heq2
      split at hfold
      · rename_i e heq3
        simp at hfold
      · rename_i s1 heq3
        refine ih
          { st with history := st.history ++
              [(g, st.feedback_encode_table (st.word_bank_index g)
                (st.valid_word_index ans))] }
          s1 out ans hans hfold ?_
        refine update_candidates_preserves
          { st with history := st.history ++
              [(g, st.feedback_encode_table (st.word_bank_index g)
                (st.valid_word_index ans))] }
          s ans s1 ?_ heq3 hmem
        intro g2 f2 hl
        have hl2 : (st.history ++
            [(g, st.feedback_encode_table (st.word_bank_index g)
              (st.valid_word_index ans))]).getLast? = some (g2, f2) := hl
        rw [List.getLast?_concat] at hl2
        injection hl2 with hl3
        injection hl3 with h1 h2
        rw [← h1]
        exact h2.symm

/-- Witness for C1: a one-word vocabulary, hidden answer "a", one played
turn. -/
theorem answer_never_pruned_witness :
    (['a'] : List Char) ∈ candSet
      { history := [(['a'], 0)], answer := some ['a'], valid_words := [['a']] }
      { candidates := some [['a']], processed_turns := 1 } :=
  answer_never_pruned [['a']]
    { answer := some ['a'], valid_words := [['a']] } { }
    ({ history := [(['a'], 0)], answer := some ['a'],
        valid_words := [['a']] },
      { candidates := some [['a']], processed_turns := 1 })
    ['a'] rfl rfl (by decide)

/-- C7: `RandomConsistentSolver.guess` on an empty candidate set fails
with the out-of-range access raised by `random.choice` on an empty
sequence (`IndexError`), not with the spec's explicit `EmptyCandidateSet`
error kind — the defensive check the spec requires is absent. -/
theorem guess_empty_candidates_out_of_range :
    solver_guess { history := [(['a'], 0)] }
        { candidates := some [], processed_turns := 1 } 0
      = .error .indexOutOfRange
    ∧ SolverErr.indexOutOfRange ≠ SolverErr.emptyCandidateSet :=
  ⟨rfl, by decide⟩

/-- C8: `play_turn` on a terminal state fails with the
"already terminated" error and leaves the state unchanged (appending
nothing); on a non-terminal state without a hidden answer it fails with
the distinct "no answer set" error, again leaving the state unchanged. -/
theorem play_turn_error_cases (solverGuess : GameState → List Char)
    (st : GameState) :
    (st.terminal = true →
      play_turn solverGuess st = (st, .error .gameAlreadyTerminal))
    ∧ (st.terminal = false → st.answer = none →
      play_turn solverGuess st = (st, .error .noAnswerSet))
    ∧ EngineErr.gameAlreadyTerminal ≠ EngineErr.noAnswerSet := by
  refine ⟨fun ht => ?_, fun ht hans => ?_, by decide⟩
  · simp [play_turn, ht]
  · simp [play_turn, ht, hans]

/-- Witness for C8: a won (hence terminal) state, and a fresh state with
no answer set. -/
theorem play_turn_error_cases_witness :
    play_turn (fun _ => ['a']) { history := [(['a'], 242)] }
      = ({ history := [(['a'], 242)] }, .error .gameAlreadyTerminal)
    ∧ play_turn (fun _ => ['a']) { } = ({ }, .error .noAnswerSet) :=
  ⟨(play_turn_error_cases (fun _ => ['a'])
      { history := [(['a'], 242)] }).1 rfl,
    (play_turn_error_cases (fun _ => ['a']) { }).2.1 rfl rfl⟩

/-! ## Index dictionary (C9) -/

theorem indexPairs_filter_nil (w : List Char) (ws : List (List Char)) :
    ∀ n : Nat, w ∉ ws →
    (indexPairs n ws).filter (fun p => p.2 == w) = [] := by
  induction ws with
  | nil => intro n _; rfl
  | cons x ws ih =>
    intro n hw
    have h1 : w ≠ x := fun h => hw (by rw [h]; exact List.mem_cons_self x ws)
    have h2 : w ∉ ws := fun h => hw (List.mem_cons_of_mem x h)
    have hb : (x == w) = false := by
      rw [beq_eq_false_iff_ne]
      exact fun h => h1 h.symm
    simp only [indexPairs, List.filter_cons, hb, Bool.false_eq_true, if_false]
    exact ih (n + 1) h2

theorem lookup_indexPairs (ws : List (List Char)) :
    ∀ n : Nat, ws.Nodup → ∀ (i : Nat) (h : i < ws.length),
    (((indexPairs n ws).filter fun p => p.2 == ws.get ⟨i, h⟩).getLast?).map
        (fun p => p.1)
      = some (n + i) := by
  induction ws with
  | nil => intro n _ i h; exact absurd h (by simp)
  | cons x ws ih =>
    intro n hnd i h
    have hx : x ∉ ws := (List.nodup_cons.mp hnd).1
    have hnd' : ws.Nodup := (List.nodup_cons.mp hnd).2
    cases i with
    | zero =>
      have hget : (x :: ws).get ⟨0, h⟩ = x := rfl
      rw [hget]
      have hrest : (indexPairs (n + 1) ws).filter (fun p => p.2 == x) = [] :=
        indexPairs_filter_nil x ws (n + 1) hx
      simp only [indexPairs, List.filter_cons, beq_self_eq_true, hrest]
      rw [if_pos trivial]
      simp
    | succ i =>
      have h' : i < ws.length := by simpa using h
      have hget : (x :: ws).get ⟨i + 1, h⟩ = ws.get ⟨i, h'⟩ := rfl
      rw [hget]
      have hmem : ws.get ⟨i, h'⟩ ∈ ws := List.get_mem ws i h'
      have hne : x ≠ ws.get ⟨i, h'⟩ := fun hxe => hx (hxe ▸ hmem)
      have hb : (x == ws.get ⟨i, h'⟩) = false := by
        rw [beq_eq_false_iff_ne]
        exact hne
      simp only [indexPairs, List.filter_cons, hb, Bool.false_eq_true,
        if_false]
      rw [ih (n + 1) hnd' i h']
      simp only [Option.some.injEq]
      omega

theorem index_dictionary_correct (word_list : List (List Char))
    (hnd : word_list.Nodup) (i : Nat) (h : i < word_list.length) :
    build_index_dictionary word_list (word_list.get ⟨i, h⟩) = some i := by
  have hl := lookup_indexPairs word_list 0 hnd i h
  simpa [build_index_dictionary] using hl

/-- C9: `GameEngine.__init__` never builds the index mappings: the call
`self._build_index_dictionary(...)` supplies two positional arguments
(the receiver and the word list) to a function declared with the single
parameter `word_list` — the `self` parameter is missing — so every
construction raises `TypeError` before any mapping exists.  The
comprehension body itself is correct: on a duplicate-free list it maps
the word at every position to that position, which is what the claim (and
the spec's precompute-once design note) asserts the construction should
produce. -/
theorem index_mappings_never_built :
    engine_build_index_call [['a', 'b'], ['c', 'd']]
      = .error .typeError
    ∧ (∀ (word_list : List (List Char)), word_list.Nodup →
        ∀ (i : Nat) (h : i < word_list.length),
        build_index_dictionary word_list (word_list.get ⟨i, h⟩) = some i) :=
  ⟨rfl, fun word_list hnd i h => index_dictionary_correct word_list hnd i h⟩

/-- Witness for the body-correctness part of C9 on the list ["ab", "cd"]
at position 1. -/
theorem index_mappings_never_built_witness :
    build_index_dictionary [['a', 'b'], ['c', 'd']]
        (([['a', 'b'], ['c', 'd']] : List (List Char)).get
          ⟨1, Nat.one_lt_two⟩)
      = some 1 :=
  index_mappings_never_built.2 [['a', 'b'], ['c', 'd']] (by decide) 1
    Nat.one_lt_two

end WordleSolver
